import Mathlib

/-!
Verification of the subagent orchestration core (`codex-rs/core`): a shallow
embedding of `subagents.rs`, `custom_agents.rs` and the subagent/delegate tool
handlers, together with proofs of the specified properties.

Rust strings are modelled as lists of Unicode scalar values (`Str`); byte
counts are recovered through `Char.utf8Size`, so `str::len` becomes `utf8Len`
and "truncate at a character boundary" becomes taking a prefix of the list.
Timestamps (`Instant`) are modelled as naturals.
-/

namespace Codex

/-- A Rust `String`, as its list of Unicode scalar values. -/
abbrev Str := List Char

/-- UTF-8 byte length of a string (Rust `str::len`). -/
def utf8Len (s : Str) : Nat := (s.map Char.utf8Size).sum

/-- Unicode `White_Space` property, as used by Rust `str::trim`. -/
def rustIsWhitespace (c : Char) : Bool :=
  let n := c.toNat
  n = 0x9 || n = 0xA || n = 0xB || n = 0xC || n = 0xD || n = 0x20 ||
  n = 0x85 || n = 0xA0 || n = 0x1680 || (0x2000 ≤ n && n ≤ 0x200A) ||
  n = 0x2028 || n = 0x2029 || n = 0x202F || n = 0x205F || n = 0x3000

/-- Rust `str::trim_start`. -/
def rustTrimStart (s : Str) : Str := s.dropWhile rustIsWhitespace

/-- Rust `str::trim_end`. -/
def rustTrimEnd (s : Str) : Str := (s.reverse.dropWhile rustIsWhitespace).reverse

/-- Rust `str::trim`: drop Unicode whitespace from both ends. -/
def rustTrim (s : Str) : Str := rustTrimEnd (rustTrimStart s)

/-- Rust `str::to_ascii_lowercase`, character by character. -/
def asciiLower (s : Str) : Str := s.map Char.toLower

/-- The longest prefix of `s` whose UTF-8 byte length is at most `n`. -/
def takeBytes : Str → Nat → Str
  | [], _ => []
  | c :: cs, n => if c.utf8Size ≤ n then c :: takeBytes cs (n - c.utf8Size) else []

/-- `truncate_to_char_boundary` (subagents.rs:687): truncate to at most
`maxBytes` bytes, backing `idx` off to the nearest character boundary. On the
list-of-scalars model the result is exactly the longest prefix of whole
characters whose byte length fits. -/
def truncate_to_char_boundary (s : Str) (maxBytes : Nat) : Str :=
  if utf8Len s ≤ maxBytes then s else takeBytes s maxBytes

/-- `SubagentStatus` (subagents.rs:112). -/
inductive SubagentStatus
  | Queued
  | Running
  | Complete
  | Aborted
  | Error

deriving DecidableEq

/-- `Default for SubagentStatus` (subagents.rs:121): initial status is Queued. -/
instance : Inhabited SubagentStatus := ⟨.Queued⟩

/-- The immutable identity and ring-buffer caps of a `SubagentHandle`
(subagents.rs:147); fields that never influence the verified behaviour
(cancellation primitive, notify) live in the step relations instead. -/
structure SubagentHandle where
  id : Str
  label : Str
  max_events : Nat
  max_event_chars : Nat
  max_output_chars : Nat

deriving DecidableEq

/-- `SubagentState` (subagents.rs:138), the handle's mutable state. -/
structure SubagentState where
  status : SubagentStatus := .Queued
  rollout_path : Option Str := none
  final_output : Option Str := none
  recent_events : List Str := []
  last_update : Option Nat := none

deriving DecidableEq

/-- `cap_output` (subagents.rs:670): byte-cap a message at `max_output_chars`
at a character boundary. -/
def cap_output (h : SubagentHandle) (message : Str) : Str :=
  if h.max_output_chars < utf8Len message then
    truncate_to_char_boundary message h.max_output_chars
  else message

/-- `push_event` (subagents.rs:677): truncate the message at a character
boundary to `max_event_chars` bytes, pop the oldest ring entry when the ring
has reached `max_events`, and append. -/
def push_event (h : SubagentHandle) (st : SubagentState) (message : Str) :
    SubagentState :=
  let message :=
    if h.max_event_chars < utf8Len message then
      truncate_to_char_boundary message h.max_event_chars
    else message
  let evs :=
    if h.max_events ≤ st.recent_events.length then st.recent_events.tail
    else st.recent_events
  { st with recent_events := evs ++ [message] }

/-- A sequence of `push_event` calls starting from a state. -/
def pushAll (h : SubagentHandle) (st : SubagentState) (msgs : List Str) :
    SubagentState :=
  msgs.foldl (push_event h) st

/-- Invariant carried through a sequence of pushes: the ring length is bounded
by `max max_events 1`, and every stored event is a character-boundary prefix of
some pushed message with at most `max_event_chars` bytes. -/
def RingInv (h : SubagentHandle) (msgs : List Str) (st : SubagentState) : Prop :=
  st.recent_events.length ≤ max h.max_events 1 ∧
  ∀ e ∈ st.recent_events, utf8Len e ≤ h.max_event_chars ∧ ∃ m ∈ msgs, e <+: m

/-- The engine events the one-shot driver's pump dispatches on
(subagents.rs:570). `otherEvent` stands for every event kind the pump
ignores (`_ => {}`). -/
inductive PumpEvent
  | sessionConfigured (rollout_path : Str)
  | execApprovalRequest
  | applyPatchApprovalRequest
  | errorEvent (message : Str)
  | streamErrorEvent (message : Str)
  | agentMessage (message : Str)
  | taskComplete (last_agent_message : Option Str)
  | turnAborted
  | otherEvent

/-- Whether the pump loop reads the next event or breaks out. -/
inductive PumpFlow
  | next
  | stop

deriving DecidableEq

/-- One iteration of the driver's event pump (subagents.rs:570-634): the state
update performed for the dispatched event and whether the loop continues.
Approval forwarding is a side effect on the parent session and leaves the
handle state unchanged. -/
def pumpStep (h : SubagentHandle) (now : Nat) (st : SubagentState)
    (ev : PumpEvent) : SubagentState × PumpFlow :=
  match ev with
  | .sessionConfigured path =>
      ({ st with rollout_path := some path, last_update := some now }, .next)
  | .execApprovalRequest => (st, .next)
  | .applyPatchApprovalRequest => (st, .next)
  | .errorEvent msg =>
      let st := { st with
        status := .Error
        final_output := some (cap_output h msg)
        last_update := some now }
      (push_event h st ("error: ".data ++ msg), .next)
  | .streamErrorEvent msg =>
      let st := { st with
        status := .Error
        final_output := some (cap_output h msg)
        last_update := some now }
      (push_event h st ("stream error: ".data ++ msg), .next)
  | .agentMessage msg =>
      (push_event h { st with last_update := some now } msg, .next)
  | .taskComplete last =>
      let st :=
        if st.status ≠ .Error then
          { st with
            status := .Complete
            final_output := last.map (cap_output h) }
        else if st.final_output = none then
          { st with final_output := last.map (cap_output h) }
        else st
      (push_event h { st with last_update := some now } "complete".data, .stop)
  | .turnAborted =>
      (push_event h { st with status := .Aborted, last_update := some now }
        "aborted".data, .stop)
  | .otherEvent => (st, .next)

/-- Observable actions of the driver after the `timeout` wrapping the Active
phase returns (subagents.rs:636-653). -/
inductive DriverAction
  | releasePermit
  | cancelToken
  | setStatusError
  | pushTimeoutEvent
  | notifyWaiters

deriving DecidableEq

/-- The order of the driver's actions after the wrapped Active phase returns
(subagents.rs:638-652): `drop(permit)` happens first; then, only when the
deadline expired (`run.is_err()`), the cancellation token is tripped, status
is set to Error if it is still Running, the timeout event is pushed and
waiters are notified. -/
def driverEpilogueTrace (timedOut : Bool) (statusAtEnd : SubagentStatus) :
    List DriverAction :=
  [.releasePermit] ++
    (if timedOut then
      [.cancelToken] ++
        (if statusAtEnd = .Running then [.setStatusError] else []) ++
        [.pushTimeoutEvent, .notifyWaiters]
    else [])

/-- Decimal rendering of a natural (Rust `Display` for integers). -/
def natToStr (n : Nat) : Str := (Nat.repr n).data

/-- The handle-state update performed when the deadline expired
(subagents.rs:641-651): set Error only when status is still Running, then push
the "timed out after Nms" event. -/
def timeoutEpilogue (h : SubagentHandle) (timeout_ms : Nat)
    (st : SubagentState) : SubagentState :=
  let st := if st.status = .Running then { st with status := .Error } else st
  push_event h st ("timed out after ".data ++ natToStr timeout_ms ++ "ms".data)

/-- `MAX_AGENT_ID_LEN` (subagents.rs:40). -/
def MAX_AGENT_ID_LEN : Nat := 64

/-- The character loop of `sanitize_agent_id` (subagents.rs:172): `len` is
the byte length of the output built so far (every kept character is ASCII,
hence one byte); the loop breaks once `len` reaches `MAX_AGENT_ID_LEN`. -/
def agentIdLoop : Str → Nat → Str
  | [], _ => []
  | c :: cs, len =>
    if MAX_AGENT_ID_LEN ≤ len then []
    else if ('a' ≤ c ∧ c ≤ 'z') ∨ ('0' ≤ c ∧ c ≤ '9') ∨ c = '-' ∨ c = '_' then
      c :: agentIdLoop cs (len + 1)
    else if 'A' ≤ c ∧ c ≤ 'Z' then
      Char.toLower c :: agentIdLoop cs (len + 1)
    else agentIdLoop cs len

/-- `sanitize_agent_id` (subagents.rs:165): trim, keep `[a-z0-9_-]`
(lowercasing ASCII uppercase), cap at 64 bytes; `None` when nothing is left. -/
def sanitize_agent_id (agent_id : Str) : Option Str :=
  let trimmed := rustTrim agent_id
  if trimmed = [] then none
  else
    let out := agentIdLoop trimmed 0
    if out = [] then none else some out

/-- The registry data `spawn_one_shot` reads from each entry: the handle's
status and `last_update` (its `SubagentState`) and `created_at`
(subagents.rs:138,147). -/
structure RegEntry where
  status : SubagentStatus
  last_update : Option Nat := none
  created_at : Nat := 0

deriving DecidableEq

/-- The registry map `agent_id → handle` of `SubagentManager`
(subagents.rs:162), as an association list in iteration order. -/
abbrev Registry := List (Str × RegEntry)

/-- Terminal statuses (the `matches!` at subagents.rs:232-235). -/
def isTerminal (s : SubagentStatus) : Bool :=
  match s with
  | .Complete | .Aborted | .Error => true
  | _ => false

/-- The prune sort key (subagents.rs:236): `last_update.unwrap_or(created_at)`. -/
def pruneKey (e : RegEntry) : Nat := e.last_update.getD e.created_at

/-- Ordering of prune candidates `(key, id)` by key (subagents.rs:239). -/
def keyLe (a b : Nat × Str) : Prop := a.1 ≤ b.1

instance : DecidableRel keyLe := fun a b => Nat.decLe a.1 b.1

instance : IsTotal (Nat × Str) keyLe := ⟨fun a b => Nat.le_total a.1 b.1⟩

instance : IsTrans (Nat × Str) keyLe := ⟨fun _ _ _ => Nat.le_trans⟩

/-- `HashMap::get`/`contains_key` on the association-list registry. -/
def lookupReg : Registry → Str → Option RegEntry
  | [], _ => none
  | (k, v) :: rest, id => if k = id then some v else lookupReg rest id

def errInvalidAgentId : Str := "invalid agent_id".data

def errMaxAgents : Str := "subagents.max_agents must be >= 1".data

def errDuplicate : Str := "agent_id already exists".data

/-- The capacity error (subagents.rs:252). -/
def errTooMany (max_agents : Nat) : Str :=
  "too many subagents in this session (max ".data ++ natToStr max_agents ++
    "); wait for some to finish or increase [subagents].max_agents".data

/-- The prune candidates `(sort key, id)` collected from the registry
snapshot in iteration order (subagents.rs:230-238): one pair per entry whose
status is terminal. -/
def terminalCandidates (reg : Registry) : List (Nat × Str) :=
  (reg.filter fun p => isTerminal p.2.status).map fun p => (pruneKey p.2, p.1)

/-- The candidates sorted ascending by key (subagents.rs:239); the stable
`sort_by(|a, b| a.0.cmp(&b.0))` is modelled by the stable `insertionSort`. -/
def sortedCandidates (reg : Registry) : List (Nat × Str) :=
  List.insertionSort keyLe (terminalCandidates reg)

/-- `SubagentManager::spawn_one_shot` (subagents.rs:188-296), as a function of
the parts of its environment it reads: `max_agents` from the parent config,
the generated `Uuid::new_v4()` as `freshId`, `Instant::now()` as `now`, the
registry, and the request's `agent_id`. Returns the registry after the call
and either the error string or the spawned agent id; the driver task is
launched (subagents.rs:279) exactly on the `.ok` path. -/
def spawn_one_shot (max_agents : Nat) (freshId : Str) (now : Nat)
    (reg : Registry) (req_agent_id : Option Str) :
    Registry × Except Str Str :=
  match
    (match req_agent_id with
     | some requested => sanitize_agent_id requested
     | none => some freshId) with
  | none => (reg, .error errInvalidAgentId)
  | some agent_id =>
    if max_agents = 0 then (reg, .error errMaxAgents)
    else if (lookupReg reg agent_id).isSome then (reg, .error errDuplicate)
    else
      let current_len := reg.length
      let reg1 :=
        if max_agents < current_len + 1 then
          let prune_candidates := sortedCandidates reg
          let remove_needed := (current_len + 1) - max_agents
          if 0 < remove_needed ∧ prune_candidates ≠ [] then
            (prune_candidates.take remove_needed).foldl
              (fun r c => r.filter fun p => p.1 ≠ c.2) reg
          else reg
        else reg
      if max_agents < reg1.length + 1 then
        (reg1, .error (errTooMany max_agents))
      else
        (reg1 ++
          [(agent_id, { status := .Queued, last_update := none, created_at := now })],
          .ok agent_id)

/-- The ids `spawn_one_shot` prunes when over capacity: the oldest
`reg.length + 1 - max_agents` sorted candidates. -/
def prunedIds (max_agents : Nat) (reg : Registry) : List Str :=
  ((sortedCandidates reg).take (reg.length + 1 - max_agents)).map Prod.snd

/-- The registry after pruning: the entries whose id was not pruned. -/
def prunedRegistry (max_agents : Nat) (reg : Registry) : Registry :=
  reg.filter fun p => p.1 ∉ prunedIds max_agents reg

deriving instance DecidableEq for Except

/-- `SubagentMode` (subagents.rs:68). -/
inductive SubagentMode
  | Explore
  | General

deriving DecidableEq

/-- `SubagentMode::from_str` (subagents.rs:77): trim, ASCII-lowercase, then
match the synonym sets. -/
def SubagentMode.from_str (mode : Str) : Option SubagentMode :=
  let m := asciiLower (rustTrim mode)
  if m = "explore".data ∨ m = "explorer".data ∨ m = "read-only".data ∨
      m = "readonly".data then
    some .Explore
  else if m = "general".data ∨ m = "default".data ∨ m = "worker".data then
    some .General
  else none

/-- `SubagentMode::as_str` (subagents.rs:85). -/
def SubagentMode.as_str : SubagentMode → Str
  | .Explore => "explore".data
  | .General => "general".data

/-- `MAX_LABEL_LEN` (tools/handlers/subagent.rs:18, delegate.rs:26). -/
def MAX_LABEL_LEN : Nat := 48

/-- The character loop shared verbatim by `sanitize_label`
(tools/handlers/subagent.rs:97-109) and `sanitize_subagent_label`
(tools/handlers/delegate.rs:54-65): `len` is the byte length of the output so
far (every kept character is ASCII, one byte); the loop breaks at
`MAX_LABEL_LEN` bytes. -/
def labelLoop : Str → Nat → Str
  | [], _ => []
  | c :: cs, len =>
    if MAX_LABEL_LEN ≤ len then []
    else if ('a' ≤ c ∧ c ≤ 'z') ∨ ('0' ≤ c ∧ c ≤ '9') ∨ c = '-' ∨ c = '_' ∨
        c = '.' then
      c :: labelLoop cs (len + 1)
    else if 'A' ≤ c ∧ c ≤ 'Z' then
      Char.toLower c :: labelLoop cs (len + 1)
    else if c = ' ' ∨ c = '/' ∨ c = ':' then
      '-' :: labelLoop cs (len + 1)
    else labelLoop cs len

/-- `DEFAULT_SUBAGENT_LABEL` (tools/handlers/subagent.rs:17). -/
def DEFAULT_SUBAGENT_LABEL : Str := "subagent".data

/-- `DEFAULT_SUBAGENT_LABEL` of the delegate tool (tools/handlers/delegate.rs:25). -/
def DEFAULT_DELEGATE_LABEL : Str := "delegate".data

/-- `sanitize_label` (tools/handlers/subagent.rs:91). -/
def sanitize_label (label : Str) : Str :=
  let trimmed := rustTrim label
  if trimmed = [] then DEFAULT_SUBAGENT_LABEL
  else
    let out := labelLoop trimmed 0
    if out = [] then DEFAULT_SUBAGENT_LABEL else out

/-- `sanitize_subagent_label` (tools/handlers/delegate.rs:48). -/
def sanitize_subagent_label (label : Str) : Str :=
  let trimmed := rustTrim label
  if trimmed = [] then DEFAULT_DELEGATE_LABEL
  else
    let out := labelLoop trimmed 0
    if out = [] then DEFAULT_DELEGATE_LABEL else out

/-- The label output alphabet `[a-z0-9._-]`. -/
def allowedLabelChar (c : Char) : Bool :=
  ('a' ≤ c && c ≤ 'z') || ('0' ≤ c && c ≤ '9') || c = '-' || c = '_' || c = '.'

/-- `AgentToolsPolicy` (custom_agents.rs:25). -/
inductive AgentToolsPolicy
  | Inherit
  | None
  | Allowlist (tools : List Str)

deriving DecidableEq

/-- The shapes of a `serde_yaml::Value`, as far as `parse_tools_policy`
distinguishes them; `number` and `mapping` (like `null` and `tagged`) all
fall to the wildcard arm. -/
inductive Yaml
  | null
  | bool (b : Bool)
  | number (n : Int)
  | str (s : Str)
  | seq (items : List Yaml)
  | mapping

/-- `MAX_ALLOWED_TOOLS` (custom_agents.rs:15). -/
def MAX_ALLOWED_TOOLS : Nat := 128

/-- `MAX_TOOL_NAME_LEN` (custom_agents.rs:16). -/
def MAX_TOOL_NAME_LEN : Nat := 128

/-- `parse_tools_policy` (custom_agents.rs:123). -/
def parse_tools_policy (raw : Option Yaml) : AgentToolsPolicy :=
  match raw with
  | none => .Inherit
  | some v =>
    match v with
    | .bool false => .None
    | .bool true => .Inherit
    | .str s =>
      let n := asciiLower (rustTrim s)
      if n = [] then .Inherit
      else if n = "inherit".data ∨ n = "default".data ∨ n = "all".data then
        .Inherit
      else if n = "none".data ∨ n = "off".data ∨ n = "disabled".data ∨
          n = "read-only".data ∨ n = "readonly".data then
        .None
      else .Inherit
    | .seq items =>
      let out := (items.take MAX_ALLOWED_TOOLS).filterMap fun item =>
        match item with
        | .str tool =>
          let trimmed := rustTrim tool
          if trimmed = [] ∨ MAX_TOOL_NAME_LEN < utf8Len trimmed then none
          else some (asciiLower trimmed)
        | _ => none
      if out = [] then .Inherit else .Allowlist out
    | _ => .Inherit

/-- The claim's reading of the sequence filter, with the length cap counted
in *characters* instead of bytes; identical to `parse_tools_policy`
otherwise. -/
def parse_tools_policy_chars (raw : Option Yaml) : AgentToolsPolicy :=
  match raw with
  | none => .Inherit
  | some v =>
    match v with
    | .bool false => .None
    | .bool true => .Inherit
    | .str s =>
      let n := asciiLower (rustTrim s)
      if n = [] then .Inherit
      else if n = "inherit".data ∨ n = "default".data ∨ n = "all".data then
        .Inherit
      else if n = "none".data ∨ n = "off".data ∨ n = "disabled".data ∨
          n = "read-only".data ∨ n = "readonly".data then
        .None
      else .Inherit
    | .seq items =>
      let out := (items.take MAX_ALLOWED_TOOLS).filterMap fun item =>
        match item with
        | .str tool =>
          let trimmed := rustTrim tool
          if trimmed = [] ∨ MAX_TOOL_NAME_LEN < trimmed.length then none
          else some (asciiLower trimmed)
        | _ => none
      if out = [] then .Inherit else .Allowlist out
    | _ => .Inherit

/-- The spec's ToolsPolicy derivation table (§4.5), written after its bullet
list: membership in the two synonym sets, survivors of the sequence filter
(strings trimming to non-empty, at most 128 *bytes*), every other shape
`Inherit`. -/
def toolsPolicySpec (raw : Option Yaml) : AgentToolsPolicy :=
  match raw with
  | none => .Inherit
  | some (.bool true) => .Inherit
  | some (.bool false) => .None
  | some (.str s) =>
    if asciiLower (rustTrim s) ∈
        [[], "inherit".data, "default".data, "all".data] then .Inherit
    else if asciiLower (rustTrim s) ∈
        ["none".data, "off".data, "disabled".data, "read-only".data,
          "readonly".data] then .None
    else .Inherit
  | some (.seq items) =>
    let survivors := (items.take 128).filterMap fun item =>
      match item with
      | .str tool =>
        if rustTrim tool ≠ [] ∧ utf8Len (rustTrim tool) ≤ 128 then
          some (asciiLower (rustTrim tool))
        else none
      | _ => none
    if survivors.isEmpty then .Inherit else .Allowlist survivors
  | some _ => .Inherit

/-- `AgentScope` (custom_agents.rs:19). -/
inductive AgentScope
  | User
  | Repo

deriving DecidableEq

/-- One agent file successfully loaded by `load_agent_from_path`, before the
scope is stamped in (custom_agents.rs:259 builds the `CustomAgent` with the
scope the loader was called with); only the fields the aggregation reads. -/
structure LoadedAgent where
  name : String
  path : String
  prompt : String

deriving DecidableEq

/-- `CustomAgent` (custom_agents.rs:35), restricted to the fields the
aggregation step manipulates. -/
structure CustomAgent where
  name : String
  path : String
  scope : AgentScope
  prompt : String

deriving DecidableEq

/-- `AgentLoadError` (custom_agents.rs:53). -/
structure AgentLoadError where
  path : String
  message : String

deriving DecidableEq

/-- Stamping the discovery scope into a loaded agent (custom_agents.rs:259). -/
def stampScope (scope : AgentScope) (la : LoadedAgent) : CustomAgent :=
  { name := la.name, path := la.path, scope := scope, prompt := la.prompt }

/-- The `by_name.entry(...)` insertion of `discover_agents`
(custom_agents.rs:314-324): a vacant name is inserted, an occupied name is
replaced only when the current scope is Repo. The `BTreeMap` is modelled as
an association list kept sorted ascending by key. -/
def insertAgent (scope : AgentScope) :
    List (String × CustomAgent) → String → CustomAgent →
      List (String × CustomAgent)
  | [], name, a => [(name, a)]
  | (k, v) :: rest, name, a =>
    if name < k then (name, a) :: (k, v) :: rest
    else if name = k then
      (k, if scope = .Repo then a else v) :: rest
    else (k, v) :: insertAgent scope rest name a

/-- `BTreeMap::get` on the sorted association list. -/
def lookupA : List (String × CustomAgent) → String → Option CustomAgent
  | [], _ => none
  | (k, v) :: rest, x => if k = x then some v else lookupA rest x

/-- One scope's scan (the body of the `for (scope, root) in roots` loop,
custom_agents.rs:293-331): fold the per-file load results into the name map
and the error list, a load failure accumulating an error and a loaded agent
being inserted under its name. Filesystem enumeration and per-file loading
are abstracted as the list of `(path, load result)` pairs the root yields,
in directory iteration order. -/
def scanScope (scope : AgentScope) :
    List (String × Except String LoadedAgent) →
    List (String × CustomAgent) × List AgentLoadError →
    List (String × CustomAgent) × List AgentLoadError
  | [], acc => acc
  | (path, .error e) :: rest, acc =>
    scanScope scope rest (acc.1, acc.2 ++ [{ path := path, message := e }])
  | (_, .ok la) :: rest, acc =>
    let agent := stampScope scope la
    scanScope scope rest (insertAgent scope acc.1 agent.name agent, acc.2)

/-- `discover_agents` (custom_agents.rs:283-335): scan the user scope then
the repo scope, then return `by_name.into_values()` — the map's values in
ascending name order — together with the accumulated errors. -/
def discover_agents
    (userFiles repoFiles : List (String × Except String LoadedAgent)) :
    List CustomAgent × List AgentLoadError :=
  let acc := scanScope .User userFiles ([], [])
  let acc := scanScope .Repo repoFiles acc
  (acc.1.map Prod.snd, acc.2)

/-- Well-formedness of the name map: keys strictly ascending, and every key
is its value's name. -/
def MapWF (m : List (String × CustomAgent)) : Prop :=
  m.Pairwise (fun a b => a.1 < b.1) ∧ ∀ p ∈ m, p.1 = p.2.name

theorem utf8Len_cons (c : Char) (s : Str) :
    utf8Len (c :: s) = c.utf8Size + utf8Len s := by
  simp [utf8Len]

theorem utf8Len_takeBytes_le (s : Str) (n : Nat) : utf8Len (takeBytes s n) ≤ n := by
  induction s generalizing n with
  | nil => simp [takeBytes, utf8Len]
  | cons c cs ih =>
    simp only [takeBytes]
    split
    · rename_i hc
      have := ih (n - c.utf8Size)
      rw [utf8Len_cons]
      omega
    · simp [utf8Len]

theorem takeBytes_prefix (s : Str) (n : Nat) : takeBytes s n <+: s := by
  induction s generalizing n with
  | nil => simp [takeBytes]
  | cons c cs ih =>
    simp only [takeBytes]
    split
    · obtain ⟨t, ht⟩ := ih (n - c.utf8Size)
      exact ⟨t, by simp [ht]⟩
    · exact List.nil_prefix

theorem utf8Len_truncate_le (s : Str) (n : Nat) :
    utf8Len (truncate_to_char_boundary s n) ≤ n := by
  unfold truncate_to_char_boundary
  split
  · assumption
  · exact utf8Len_takeBytes_le s n

theorem truncate_prefix (s : Str) (n : Nat) :
    truncate_to_char_boundary s n <+: s := by
  unfold truncate_to_char_boundary
  split
  · exact List.prefix_refl s
  · exact takeBytes_prefix s n

theorem push_event_stored (h : SubagentHandle) (st : SubagentState) (m : Str) :
    ∀ e ∈ (push_event h st m).recent_events,
      e ∈ st.recent_events ∨ (utf8Len e ≤ h.max_event_chars ∧ e <+: m) := by
  intro e he
  simp only [push_event, List.mem_append, List.mem_singleton] at he
  rcases he with he | rfl
  · left
    split at he
    · exact st.recent_events.tail_subset he
    · exact he
  · right
    constructor
    · split
      · exact utf8Len_truncate_le _ _
      · rename_i hlt
        omega
    · split
      · exact truncate_prefix _ _
      · exact List.prefix_refl _

theorem push_event_length (h : SubagentHandle) (st : SubagentState) (m : Str) :
    (push_event h st m).recent_events.length =
      (if h.max_events ≤ st.recent_events.length then
        st.recent_events.length - 1 else st.recent_events.length) + 1 := by
  simp only [push_event, List.length_append, List.length_singleton]
  split <;> simp [List.length_tail]

theorem ringInv_mono (h : SubagentHandle) (msgs msgs' : List Str)
    (hsub : msgs ⊆ msgs') (st : SubagentState) (hi : RingInv h msgs st) :
    RingInv h msgs' st := by
  refine ⟨hi.1, fun e he => ?_⟩
  obtain ⟨h1, m, hm, hp⟩ := hi.2 e he
  exact ⟨h1, m, hsub hm, hp⟩

theorem ringInv_push (h : SubagentHandle) (msgs : List Str) (st : SubagentState)
    (m : Str) (hi : RingInv h msgs st) :
    RingInv h (msgs ++ [m]) (push_event h st m) := by
  constructor
  · rw [push_event_length]
    have := hi.1
    split <;> omega
  · intro e he
    rcases push_event_stored h st m e he with hold | ⟨hb, hp⟩
    · obtain ⟨h1, m', hm', hp'⟩ := hi.2 e hold
      exact ⟨h1, m', List.mem_append_left _ hm', hp'⟩
    · exact ⟨hb, m, List.mem_append_right _ (List.mem_singleton_self m), hp⟩

theorem ringInv_pushAll (h : SubagentHandle) (st : SubagentState)
    (pre msgs : List Str) (hi : RingInv h pre st) :
    RingInv h (pre ++ msgs) (pushAll h st msgs) := by
  induction msgs generalizing st pre with
  | nil => simpa [pushAll] using hi
  | cons m ms ih =>
    have step := ringInv_push h pre st m hi
    have := ih (push_event h st m) (pre ++ [m]) step
    simpa [pushAll, List.append_assoc] using this

/-- **C1 (amended).** For every handle and every sequence of `push_event`
calls starting from the initial (empty) state, the ring holds at most
`max max_events 1` events — hence at most `max_events` events whenever
`max_events ≥ 1` — every stored event is at most `max_event_chars` bytes
long, and every stored event is a whole-character prefix of the message that
was pushed (truncation removes bytes only from a character-boundary suffix). -/
theorem push_event_ring_invariant (h : SubagentHandle) (msgs : List Str) :
    (pushAll h {} msgs).recent_events.length ≤ max h.max_events 1 ∧
    (1 ≤ h.max_events →
      (pushAll h {} msgs).recent_events.length ≤ h.max_events) ∧
    ∀ e ∈ (pushAll h {} msgs).recent_events,
      utf8Len e ≤ h.max_event_chars ∧ ∃ m ∈ msgs, e <+: m := by
  have base : RingInv h [] ({} : SubagentState) := by
    constructor
    · simp
    · intro e he
      simp at he
  have := ringInv_pushAll h {} [] msgs base
  simp only [List.nil_append] at this
  refine ⟨this.1, fun h1 => ?_, this.2⟩
  have := this.1
  omega

/-- **C1 (counterexample).** With `max_events = 0` a single `push_event` on the
empty ring leaves one stored event, so the ring does *not* hold at most
`max_events` events for every value of `max_events`: the claim fails at
`max_events = 0`. -/
theorem push_event_ring_zero_counterexample :
    ¬ ((push_event ⟨[], [], 0, 16, 16⟩ {} ['x']).recent_events.length ≤
        (⟨[], [], 0, 16, 16⟩ : SubagentHandle).max_events) := by
  decide

theorem push_event_status (h : SubagentHandle) (st : SubagentState) (m : Str) :
    (push_event h st m).status = st.status := rfl

theorem push_event_final_output (h : SubagentHandle) (st : SubagentState)
    (m : Str) : (push_event h st m).final_output = st.final_output := rfl

theorem push_event_last (h : SubagentHandle) (st : SubagentState) (m : Str) :
    ∃ e, (push_event h st m).recent_events.getLast? = some e ∧ e <+: m := by
  simp only [push_event]
  refine ⟨_, List.getLast?_concat _, ?_⟩
  split
  · exact truncate_prefix _ _
  · exact List.prefix_refl _

theorem cap_output_le (h : SubagentHandle) (m : Str) :
    utf8Len (cap_output h m) ≤ h.max_output_chars := by
  unfold cap_output
  split
  · exact utf8Len_truncate_le _ _
  · omega

theorem cap_output_prefix (h : SubagentHandle) (m : Str) :
    cap_output h m <+: m := by
  unfold cap_output
  split
  · exact truncate_prefix _ _
  · exact List.prefix_refl _

/-- **C2.** In the event pump: `Error`/`StreamError` set status Error, store
the byte-capped message as `final_output` (capped at `max_output_chars`, at a
character boundary, i.e. a whole-character prefix), and the loop continues; a
`TaskComplete` with status not yet Error sets Complete and the capped last
agent message, while one arriving with status Error keeps status Error and
fills `final_output` only if it was empty; in both `TaskComplete` cases a
"complete" event is pushed and the loop stops. -/
theorem pump_error_stream_taskcomplete (h : SubagentHandle) (st : SubagentState)
    (msg : Str) (last : Option Str) (now : Nat) :
    ((pumpStep h now st (.errorEvent msg)).1.status = .Error ∧
     (pumpStep h now st (.errorEvent msg)).1.final_output =
       some (cap_output h msg) ∧
     (pumpStep h now st (.errorEvent msg)).2 = .next) ∧
    ((pumpStep h now st (.streamErrorEvent msg)).1.status = .Error ∧
     (pumpStep h now st (.streamErrorEvent msg)).1.final_output =
       some (cap_output h msg) ∧
     (pumpStep h now st (.streamErrorEvent msg)).2 = .next) ∧
    (utf8Len (cap_output h msg) ≤ h.max_output_chars ∧ cap_output h msg <+: msg) ∧
    (st.status ≠ .Error →
      (pumpStep h now st (.taskComplete last)).1.status = .Complete ∧
      (pumpStep h now st (.taskComplete last)).1.final_output =
        last.map (cap_output h)) ∧
    (st.status = .Error →
      (pumpStep h now st (.taskComplete last)).1.status = .Error ∧
      (st.final_output = none →
        (pumpStep h now st (.taskComplete last)).1.final_output =
          last.map (cap_output h)) ∧
      (∀ o, st.final_output = some o →
        (pumpStep h now st (.taskComplete last)).1.final_output = some o)) ∧
    ((pumpStep h now st (.taskComplete last)).2 = .stop ∧
     ∃ e, (pumpStep h now st (.taskComplete last)).1.recent_events.getLast? =
        some e ∧ e <+: "complete".data) := by
  refine ⟨⟨rfl, rfl, rfl⟩, ⟨rfl, rfl, rfl⟩,
    ⟨cap_output_le h msg, cap_output_prefix h msg⟩, ?_, ?_, ?_, ?_⟩
  · intro hne
    constructor
    · simp [pumpStep, push_event_status, hne]
    · simp [pumpStep, push_event_final_output, hne]
  · intro he
    refine ⟨?_, ?_, ?_⟩
    · by_cases hf : st.final_output = none
      · simp [pumpStep, push_event_status, he, hf]
      · simp [pumpStep, push_event_status, he, hf]
    · intro hnone
      simp [pumpStep, push_event_final_output, he, hnone]
    · intro o ho
      simp [pumpStep, push_event_final_output, he, ho]
  · rfl
  · simp only [pumpStep]
    exact push_event_last h _ _

/-- **C6 (amended).** When the deadline expires: the cancellation token is
tripped, a "timed out after Nms" event is pushed, and status becomes Error
exactly when it was still Running — a status that is already terminal is never
overwritten. The concurrency permit, however, is released *first*, immediately
after the wrapped Active phase returns and before the timeout handling (and it
is also released when no timeout occurred). -/
theorem timeout_epilogue_correct (h : SubagentHandle) (ms : Nat)
    (st : SubagentState) (status : SubagentStatus) :
    ((timeoutEpilogue h ms st).status =
       if st.status = .Running then .Error else st.status) ∧
    (st.status ≠ .Running → (timeoutEpilogue h ms st).status = st.status) ∧
    (∃ e, (timeoutEpilogue h ms st).recent_events.getLast? = some e ∧
       e <+: ("timed out after ".data ++ natToStr ms ++ "ms".data)) ∧
    (driverEpilogueTrace true status).head? = some .releasePermit ∧
    DriverAction.cancelToken ∈ driverEpilogueTrace true status ∧
    DriverAction.pushTimeoutEvent ∈ driverEpilogueTrace true status ∧
    (DriverAction.setStatusError ∈ driverEpilogueTrace true status ↔
      status = .Running) ∧
    driverEpilogueTrace false status = [.releasePermit] := by
  refine ⟨?_, ?_, ?_, ?_, ?_, ?_, ?_, ?_⟩
  · by_cases hr : st.status = .Running
    · simp [timeoutEpilogue, push_event_status, hr]
    · simp [timeoutEpilogue, push_event_status, hr]
  · intro hne
    simp [timeoutEpilogue, push_event_status, hne]
  · simp only [timeoutEpilogue]
    exact push_event_last h _ _
  · cases status <;> rfl
  · cases status <;> decide
  · cases status <;> decide
  · cases status <;> decide
  · rfl

/-- **C6 (counterexample).** The claim states that the permit is released
last, after the timeout handling; in the code `drop(permit)` (subagents.rs:638)
precedes the timeout handling block, so on the timed-out path the permit
release is the *first* action, not the last. -/
theorem permit_release_not_last_counterexample :
    (driverEpilogueTrace true .Running).head? = some .releasePermit ∧
    (driverEpilogueTrace true .Running).getLast? = some .notifyWaiters ∧
    (driverEpilogueTrace true .Running).getLast? ≠ some .releasePermit := by
  decide

theorem foldl_remove_eq_filter (ids : List (Nat × Str)) (reg : Registry) :
    ids.foldl (fun r c => r.filter fun p => p.1 ≠ c.2) reg =
      reg.filter fun p => p.1 ∉ ids.map Prod.snd := by
  induction ids generalizing reg with
  | nil => simp
  | cons c cs ih =>
    rw [List.foldl_cons, ih, List.filter_filter]
    apply List.filter_congr
    intro p _
    simp [List.mem_cons, not_or, Bool.decide_and, Bool.and_comm]
    by_cases hpc : p.1 = c.2 <;> simp [hpc]

theorem mem_terminalCandidates {reg : Registry} {c : Nat × Str} :
    c ∈ terminalCandidates reg ↔
      ∃ p ∈ reg, isTerminal p.2.status = true ∧ c = (pruneKey p.2, p.1) := by
  unfold terminalCandidates
  simp only [List.mem_map, List.mem_filter]
  constructor
  · rintro ⟨p, ⟨hp, ht⟩, rfl⟩
    exact ⟨p, hp, ht, rfl⟩
  · rintro ⟨p, hp, ht, rfl⟩
    exact ⟨p, ⟨hp, ht⟩, rfl⟩

theorem key_unique (reg : Registry) (hnodup : (reg.map Prod.fst).Nodup)
    {p q : Str × RegEntry} (hp : p ∈ reg) (hq : q ∈ reg) (heq : p.1 = q.1) :
    p = q := by
  induction reg with
  | nil => cases hp
  | cons a rest ih =>
    simp only [List.map_cons, List.nodup_cons] at hnodup
    rcases List.mem_cons.mp hp with rfl | hp' <;>
      rcases List.mem_cons.mp hq with h2 | hq'
    · exact h2.symm
    · exfalso
      apply hnodup.1
      rw [heq]
      exact List.mem_map_of_mem Prod.fst hq'
    · exfalso
      subst h2
      apply hnodup.1
      rw [← heq]
      exact List.mem_map_of_mem Prod.fst hp'
    · exact ih hnodup.2 hp' hq'

theorem lookupReg_countP (reg : Registry) (aid : Str) (e : RegEntry)
    (hnodup : (reg.map Prod.fst).Nodup) (hl : lookupReg reg aid = some e) :
    reg.countP (fun p => p.1 = aid) = 1 := by
  induction reg with
  | nil => simp [lookupReg] at hl
  | cons kv rest ih =>
    obtain ⟨k, v⟩ := kv
    simp only [List.map_cons, List.nodup_cons] at hnodup
    simp only [lookupReg] at hl
    by_cases hk : k = aid
    · subst hk
      have hz : rest.countP (fun p => decide (p.1 = k)) = 0 := by
        apply List.countP_eq_zero.mpr
        intro p hp
        simp only [decide_eq_true_eq]
        intro hpa
        exact hnodup.1 (hpa ▸ List.mem_map_of_mem Prod.fst hp)
      simp [List.countP_cons, hz]
    · rw [if_neg hk] at hl
      have := ih hnodup.2 hl
      simp [List.countP_cons, hk, this]

/-- **C3.** For every spawn call that reaches the capacity step (a valid,
fresh sanitised id and `max_agents ≥ 1`) where inserting one more entry
would exceed `max_agents`: exactly the entries with terminal status are
pruning candidates; the pruned ids are the oldest candidates by
`last_update` (falling back to `created_at` when unset); as many are removed
as needed for the new entry to fit, or all candidates when fewer; if the
registry still cannot fit the new entry the call fails with the
too-many-subagents error, otherwise the new Queued handle is inserted. -/
theorem spawn_prunes_oldest_terminal (max_agents now : Nat) (freshId : Str)
    (reg : Registry) (raw aid : Str)
    (hsan : sanitize_agent_id raw = some aid)
    (hmax : 1 ≤ max_agents)
    (hdup : lookupReg reg aid = none)
    (hover : max_agents < reg.length + 1)
    (hnodup : (reg.map Prod.fst).Nodup) :
    (∀ id ∈ prunedIds max_agents reg,
      ∃ p ∈ reg, p.1 = id ∧ isTerminal p.2.status = true) ∧
    (∀ p ∈ reg, p.1 ∈ prunedIds max_agents reg →
      ∀ q ∈ reg, isTerminal q.2.status = true →
        q.1 ∉ prunedIds max_agents reg → pruneKey p.2 ≤ pruneKey q.2) ∧
    (prunedIds max_agents reg).length =
      min (reg.length + 1 - max_agents)
        ((reg.filter fun p => isTerminal p.2.status).length) ∧
    (if max_agents < (prunedRegistry max_agents reg).length + 1 then
      spawn_one_shot max_agents freshId now reg (some raw) =
        (prunedRegistry max_agents reg, .error (errTooMany max_agents))
    else
      spawn_one_shot max_agents freshId now reg (some raw) =
        (prunedRegistry max_agents reg ++
          [(aid, ⟨.Queued, none, now⟩)], .ok aid)) := by
  have hperm : List.Perm (sortedCandidates reg) (terminalCandidates reg) :=
    List.perm_insertionSort keyLe _
  have hsorted : (sortedCandidates reg).Sorted keyLe :=
    List.sorted_insertionSort keyLe _
  refine ⟨?_, ?_, ?_, ?_⟩
  · intro id hid
    obtain ⟨c, hc, rfl⟩ := List.mem_map.mp hid
    have hcs : c ∈ sortedCandidates reg := List.mem_of_mem_take hc
    obtain ⟨p, hp, ht, rfl⟩ := mem_terminalCandidates.mp (hperm.mem_iff.mp hcs)
    exact ⟨p, hp, rfl, ht⟩
  · intro p hp hpmem q hq hqt hqnot
    obtain ⟨cp, hcp, hcpe⟩ := List.mem_map.mp hpmem
    obtain ⟨p', hp', hpt', rfl⟩ :=
      mem_terminalCandidates.mp (hperm.mem_iff.mp (List.mem_of_mem_take hcp))
    have hpp : p' = p := key_unique reg hnodup hp' hp hcpe
    subst hpp
    have hqs : (pruneKey q.2, q.1) ∈ sortedCandidates reg :=
      hperm.mem_iff.mpr (mem_terminalCandidates.mpr ⟨q, hq, hqt, rfl⟩)
    have hsplit :=
      List.take_append_drop (reg.length + 1 - max_agents) (sortedCandidates reg)
    have hqdrop : (pruneKey q.2, q.1) ∈
        (sortedCandidates reg).drop (reg.length + 1 - max_agents) := by
      rw [← hsplit] at hqs
      rcases List.mem_append.mp hqs with h | h
      · exact absurd (List.mem_map_of_mem Prod.snd h) hqnot
      · exact h
    have hpw : ((sortedCandidates reg).take (reg.length + 1 - max_agents) ++
        (sortedCandidates reg).drop (reg.length + 1 - max_agents)).Pairwise
          keyLe := by
      rw [hsplit]
      exact hsorted
    exact (List.pairwise_append.mp hpw).2.2 _ hcp _ hqdrop
  · simp [prunedIds, sortedCandidates, terminalCandidates, List.length_take,
      (List.perm_insertionSort keyLe (terminalCandidates reg)).length_eq]
  · have hne0 : max_agents ≠ 0 := by omega
    have e1 : spawn_one_shot max_agents freshId now reg (some raw) =
        (if max_agents < (prunedRegistry max_agents reg).length + 1 then
          (prunedRegistry max_agents reg, .error (errTooMany max_agents))
        else
          (prunedRegistry max_agents reg ++
            [(aid, ⟨.Queued, none, now⟩)], .ok aid)) := by
      have hR : (if 0 < reg.length + 1 - max_agents ∧ sortedCandidates reg ≠ []
            then
            ((sortedCandidates reg).take (reg.length + 1 - max_agents)).foldl
              (fun r c => r.filter fun p => p.1 ≠ c.2) reg
          else reg) = prunedRegistry max_agents reg := by
        by_cases hc : sortedCandidates reg = []
        · rw [if_neg (by simp [hc])]
          simp [prunedRegistry, prunedIds, hc]
        · rw [if_pos ⟨by omega, hc⟩, foldl_remove_eq_filter]
          simp only [prunedRegistry, prunedIds]
      simp only [spawn_one_shot, hsan]
      rw [if_neg hne0]
      simp only [hdup, Option.isSome_none, Bool.false_eq_true, if_false]
      rw [if_pos hover, hR]
    rw [e1]
    split
    · rfl
    · rfl

/-- Witness for C3 at the spec's pruning scenario: `max_agents = 2`, A and B
complete with A older; spawning C prunes A and admits C as Queued. -/
theorem spawn_prunes_oldest_terminal_witness :
    spawn_one_shot 2 [] 10
      [(['a'], ⟨.Complete, some 1, 0⟩), (['b'], ⟨.Complete, some 2, 0⟩)]
      (some ['c']) =
    (prunedRegistry 2
        [(['a'], ⟨.Complete, some 1, 0⟩), (['b'], ⟨.Complete, some 2, 0⟩)] ++
      [(['c'], ⟨.Queued, none, 10⟩)], .ok ['c']) ∧
    prunedRegistry 2
        [(['a'], ⟨.Complete, some 1, 0⟩), (['b'], ⟨.Complete, some 2, 0⟩)] =
      [(['b'], ⟨.Complete, some 2, 0⟩)] := by
  have h := spawn_prunes_oldest_terminal 2 10 []
    [(['a'], ⟨.Complete, some 1, 0⟩), (['b'], ⟨.Complete, some 2, 0⟩)]
    ['c'] ['c'] (by decide) (by decide) (by decide) (by decide) (by decide)
  exact ⟨h.2.2.2, by decide⟩

/-- **C4 (amended).** `max_agents = 0` makes every spawn fail with an error
and leave the registry untouched; a spawn at capacity with no terminal
entries whose request also passes id validation (a valid, fresh sanitised id)
fails with the too-many-subagents error and leaves the registry exactly as it
was — no entry is inserted or removed, and no driver task is launched (the
driver task is launched only on the `.ok` path). -/
theorem spawn_zero_and_full_capacity_errors (max_agents now : Nat)
    (freshId : Str) (reg : Registry) (req : Option Str) (raw aid : Str) :
    (max_agents = 0 →
      (spawn_one_shot max_agents freshId now reg req).1 = reg ∧
      ∀ a, (spawn_one_shot max_agents freshId now reg req).2 ≠ .ok a) ∧
    (1 ≤ max_agents → max_agents < reg.length + 1 →
      (∀ p ∈ reg, isTerminal p.2.status = false) →
      sanitize_agent_id raw = some aid → lookupReg reg aid = none →
      spawn_one_shot max_agents freshId now reg (some raw) =
        (reg, .error (errTooMany max_agents))) := by
  constructor
  · intro h0
    subst h0
    rcases req with _ | r
    · simp [spawn_one_shot]
    · rcases hs : sanitize_agent_id r with _ | a
      · simp [spawn_one_shot, hs]
      · simp [spawn_one_shot, hs]
  · intro hmax hover hterm hsan hdup
    have hfilter : (reg.filter fun p => isTerminal p.2.status) = [] := by
      apply List.filter_eq_nil_iff.mpr
      intro p hp
      simp [hterm p hp]
    have hcand : sortedCandidates reg = [] := by
      simp [sortedCandidates, terminalCandidates, hfilter]
    have hne0 : max_agents ≠ 0 := by omega
    have hR : (if 0 < reg.length + 1 - max_agents ∧ sortedCandidates reg ≠ []
          then
          ((sortedCandidates reg).take (reg.length + 1 - max_agents)).foldl
            (fun r c => r.filter fun p => p.1 ≠ c.2) reg
        else reg) = reg := by
      rw [if_neg (by simp [hcand])]
    simp only [spawn_one_shot, hsan]
    rw [if_neg hne0]
    simp only [hdup, Option.isSome_none, Bool.false_eq_true, if_false]
    rw [if_pos hover, hR, if_pos hover]

/-- Witness for C4: with `max_agents = 0` the registry stays empty, and at
capacity with only a Running entry the call returns the capacity error and
the registry is unchanged. -/
theorem spawn_zero_and_full_capacity_witness :
    (spawn_one_shot 0 [] 0 [] (some ['a'])).1 = [] ∧
    spawn_one_shot 1 [] 0 [(['b'], ⟨.Running, none, 0⟩)] (some ['a']) =
      ([(['b'], ⟨.Running, none, 0⟩)], .error (errTooMany 1)) := by
  have h1 := spawn_zero_and_full_capacity_errors 0 0 [] [] (some ['a'])
    ['a'] ['a']
  have h2 := spawn_zero_and_full_capacity_errors 1 0 []
    [(['b'], ⟨.Running, none, 0⟩)] (some ['a']) ['a'] ['a']
  exact ⟨(h1.1 rfl).1,
    h2.2 (by decide) (by decide) (by decide) (by decide) (by decide)⟩

/-- **C4 (counterexample).** A spawn at capacity with no terminal entries but
a duplicate requested id fails with the duplicate error, not the
too-many-subagents error, so the claim's "returns the too-many-subagents
error" does not hold for *every* spawn call at capacity without terminal
entries. -/
theorem spawn_capacity_duplicate_counterexample :
    (spawn_one_shot 1 [] 0 [(['a'], ⟨.Running, none, 0⟩)] (some ['a'])).2 =
      .error errDuplicate ∧
    (spawn_one_shot 1 [] 0 [(['a'], ⟨.Running, none, 0⟩)] (some ['a'])).2 ≠
      .error (errTooMany 1) ∧
    (∀ p ∈ [(['a'], (⟨.Running, none, 0⟩ : RegEntry))],
      isTerminal p.2.status = false) ∧
    (1 : Nat) < [(['a'], (⟨.Running, none, 0⟩ : RegEntry))].length + 1 := by
  decide

/-- **C5.** If an entry under id `aid` is in the registry, a later spawn whose
sanitised agent id is the same string fails with the duplicate-id error; the
registry is unchanged, still containing exactly one entry under that id with
its data untouched. -/
theorem spawn_duplicate_id_rejected (max_agents now : Nat) (freshId : Str)
    (reg : Registry) (raw aid : Str) (e : RegEntry)
    (hmax : 1 ≤ max_agents)
    (hsan : sanitize_agent_id raw = some aid)
    (hfound : lookupReg reg aid = some e)
    (hnodup : (reg.map Prod.fst).Nodup) :
    spawn_one_shot max_agents freshId now reg (some raw) =
      (reg, .error errDuplicate) ∧
    (spawn_one_shot max_agents freshId now reg (some raw)).1.countP
      (fun p => p.1 = aid) = 1 ∧
    lookupReg (spawn_one_shot max_agents freshId now reg (some raw)).1 aid =
      some e := by
  have hne0 : max_agents ≠ 0 := by omega
  have hs : (lookupReg reg aid).isSome = true := by rw [hfound]; rfl
  have e1 : spawn_one_shot max_agents freshId now reg (some raw) =
      (reg, .error errDuplicate) := by
    simp only [spawn_one_shot, hsan]
    rw [if_neg hne0, if_pos hs]
  refine ⟨e1, ?_, ?_⟩
  · rw [e1]
    exact lookupReg_countP reg aid e hnodup hfound
  · rw [e1]
    exact hfound

/-- Witness for C5: a second spawn with `agent_id:"x"` fails with the
duplicate error and the registry still has exactly one entry under "x". -/
theorem spawn_duplicate_id_witness :
    spawn_one_shot 4 [] 7 [(['x'], ⟨.Running, none, 0⟩)] (some ['x']) =
      ([(['x'], ⟨.Running, none, 0⟩)], .error errDuplicate) ∧
    ([(['x'], (⟨.Running, none, 0⟩ : RegEntry))] : Registry).countP
      (fun p => p.1 = ['x']) = 1 := by
  have h := spawn_duplicate_id_rejected 4 7 [] [(['x'], ⟨.Running, none, 0⟩)]
    ['x'] ['x'] ⟨.Running, none, 0⟩ (by decide) (by decide) (by decide)
    (by decide)
  refine ⟨h.1, ?_⟩
  have h2 := h.2.1
  rw [h.1] at h2
  exact h2

/-- **C9.** `from_str (as_str m) = some m` for both modes, and `from_str`,
after trimming and ASCII-lowercasing its input, maps exactly the four
explore synonyms to Explore, exactly the three general synonyms to General,
and everything else to `none`. -/
theorem subagent_mode_roundtrip_exact :
    (∀ m : SubagentMode, SubagentMode.from_str m.as_str = some m) ∧
    ∀ s : Str,
      (SubagentMode.from_str s = some .Explore ↔
        (asciiLower (rustTrim s) = "explore".data ∨
         asciiLower (rustTrim s) = "explorer".data ∨
         asciiLower (rustTrim s) = "read-only".data ∨
         asciiLower (rustTrim s) = "readonly".data)) ∧
      (SubagentMode.from_str s = some .General ↔
        (asciiLower (rustTrim s) = "general".data ∨
         asciiLower (rustTrim s) = "default".data ∨
         asciiLower (rustTrim s) = "worker".data)) ∧
      (SubagentMode.from_str s = none ↔
        (¬ (asciiLower (rustTrim s) = "explore".data ∨
            asciiLower (rustTrim s) = "explorer".data ∨
            asciiLower (rustTrim s) = "read-only".data ∨
            asciiLower (rustTrim s) = "readonly".data) ∧
         ¬ (asciiLower (rustTrim s) = "general".data ∨
            asciiLower (rustTrim s) = "default".data ∨
            asciiLower (rustTrim s) = "worker".data))) := by
  constructor
  · intro m
    cases m <;> decide
  · intro s
    simp only [SubagentMode.from_str]
    by_cases h1 : asciiLower (rustTrim s) = "explore".data ∨
        asciiLower (rustTrim s) = "explorer".data ∨
        asciiLower (rustTrim s) = "read-only".data ∨
        asciiLower (rustTrim s) = "readonly".data
    · have hng : ¬ (asciiLower (rustTrim s) = "general".data ∨
          asciiLower (rustTrim s) = "default".data ∨
          asciiLower (rustTrim s) = "worker".data) := by
        rcases h1 with h | h | h | h <;> rw [h] <;> decide
      rw [if_pos h1]
      refine ⟨by simp [h1], by simp [hng], by simp [h1]⟩
    · by_cases h2 : asciiLower (rustTrim s) = "general".data ∨
          asciiLower (rustTrim s) = "default".data ∨
          asciiLower (rustTrim s) = "worker".data
      · rw [if_neg h1, if_pos h2]
        refine ⟨by simp [h1], by simp [h2], by simp [h2]⟩
      · rw [if_neg h1, if_neg h2]
        refine ⟨by simp [h1], by simp [h2], by simp [h1, h2]⟩

theorem utf8Size_eq_one_of_toNat_le {c : Char} (h : c.toNat ≤ 122) :
    c.utf8Size = 1 := by
  unfold Char.utf8Size
  rw [if_pos]
  show c.toNat ≤ 127
  omega

theorem toLower_toNat_bounds (c : Char) (h1 : 65 ≤ c.toNat)
    (h2 : c.toNat ≤ 90) :
    97 ≤ (Char.toLower c).toNat ∧ (Char.toLower c).toNat ≤ 122 := by
  unfold Char.toLower
  rw [if_pos ⟨h1, h2⟩]
  have hv : (c.toNat + 32).isValidChar := Or.inl (by omega)
  rw [Char.ofNat, dif_pos hv]
  have he : (Char.ofNatAux (c.toNat + 32) hv).toNat = c.toNat + 32 := rfl
  omega

theorem allowedLabelChar_toNat_le {c : Char}
    (h : allowedLabelChar c = true) : c.toNat ≤ 122 := by
  simp only [allowedLabelChar, Bool.or_eq_true, Bool.and_eq_true,
    decide_eq_true_eq] at h
  rcases h with (((h | h) | h) | h) | h
  · exact h.2
  · have h9 : c.toNat ≤ 57 := h.2
    omega
  · rw [h]; decide
  · rw [h]; decide
  · rw [h]; decide

theorem allowedLabelChar_utf8Size {c : Char}
    (h : allowedLabelChar c = true) : c.utf8Size = 1 :=
  utf8Size_eq_one_of_toNat_le (allowedLabelChar_toNat_le h)

theorem labelLoop_allowed (s : Str) : ∀ (len : Nat),
    ∀ c ∈ labelLoop s len, allowedLabelChar c = true := by
  induction s with
  | nil =>
    intro len c hc
    simp [labelLoop] at hc
  | cons a as ih =>
    intro len c hc
    simp only [labelLoop] at hc
    split at hc
    · simp at hc
    · split at hc
      · rename_i hcond
        rcases List.mem_cons.mp hc with rfl | hc'
        · simp only [allowedLabelChar, Bool.or_eq_true, Bool.and_eq_true,
            decide_eq_true_eq]
          rcases hcond with h | h | h | h | h
          · exact Or.inl (Or.inl (Or.inl (Or.inl ⟨h.1, h.2⟩)))
          · exact Or.inl (Or.inl (Or.inl (Or.inr ⟨h.1, h.2⟩)))
          · exact Or.inl (Or.inl (Or.inr h))
          · exact Or.inl (Or.inr h)
          · exact Or.inr h
        · exact ih _ c hc'
      · split at hc
        · rename_i hup
          rcases List.mem_cons.mp hc with rfl | hc'
          · have hb := toLower_toNat_bounds a hup.1 hup.2
            simp only [allowedLabelChar, Bool.or_eq_true, Bool.and_eq_true,
              decide_eq_true_eq]
            exact Or.inl (Or.inl (Or.inl (Or.inl ⟨hb.1, hb.2⟩)))
          · exact ih _ c hc'
        · split at hc
          · rcases List.mem_cons.mp hc with rfl | hc'
            · decide
            · exact ih _ c hc'
          · exact ih _ c hc

theorem labelLoop_length (s : Str) : ∀ (len : Nat),
    (labelLoop s len).length ≤ MAX_LABEL_LEN - len := by
  induction s with
  | nil =>
    intro len
    simp [labelLoop]
  | cons a as ih =>
    intro len
    simp only [labelLoop]
    split
    · simp
    · rename_i hlt
      split
      · have := ih (len + 1)
        simp only [List.length_cons]
        omega
      · split
        · have := ih (len + 1)
          simp only [List.length_cons]
          omega
        · split
          · have := ih (len + 1)
            simp only [List.length_cons]
            omega
          · have := ih len
            omega

theorem utf8Len_eq_length_of_allowed (s : Str)
    (h : ∀ c ∈ s, allowedLabelChar c = true) : utf8Len s = s.length := by
  induction s with
  | nil => rfl
  | cons a as ih =>
    rw [utf8Len_cons,
      allowedLabelChar_utf8Size (h a (List.mem_cons_self a as)),
      ih fun c hc => h c (List.mem_cons_of_mem a hc)]
    rw [List.length_cons]
    omega

theorem sanitize_label_spec (label : Str) :
    sanitize_label label ≠ [] ∧
    utf8Len (sanitize_label label) ≤ MAX_LABEL_LEN ∧
    (∀ c ∈ sanitize_label label, allowedLabelChar c = true) ∧
    (rustTrim label = [] → sanitize_label label = DEFAULT_SUBAGENT_LABEL) ∧
    (labelLoop (rustTrim label) 0 = [] →
      sanitize_label label = DEFAULT_SUBAGENT_LABEL) := by
  simp only [sanitize_label]
  split_ifs with h1 h2
  · exact ⟨by decide, by decide, by decide, fun _ => rfl, fun _ => rfl⟩
  · exact ⟨by decide, by decide, by decide, fun _ => rfl, fun _ => rfl⟩
  · refine ⟨h2, ?_, labelLoop_allowed _ 0, fun h => absurd h h1,
      fun h => absurd h h2⟩
    rw [utf8Len_eq_length_of_allowed _ (labelLoop_allowed _ 0)]
    have := labelLoop_length (rustTrim label) 0
    omega

theorem sanitize_subagent_label_spec (label : Str) :
    sanitize_subagent_label label ≠ [] ∧
    utf8Len (sanitize_subagent_label label) ≤ MAX_LABEL_LEN ∧
    (∀ c ∈ sanitize_subagent_label label, allowedLabelChar c = true) ∧
    (rustTrim label = [] →
      sanitize_subagent_label label = DEFAULT_DELEGATE_LABEL) ∧
    (labelLoop (rustTrim label) 0 = [] →
      sanitize_subagent_label label = DEFAULT_DELEGATE_LABEL) := by
  simp only [sanitize_subagent_label]
  split_ifs with h1 h2
  · exact ⟨by decide, by decide, by decide, fun _ => rfl, fun _ => rfl⟩
  · exact ⟨by decide, by decide, by decide, fun _ => rfl, fun _ => rfl⟩
  · refine ⟨h2, ?_, labelLoop_allowed _ 0, fun h => absurd h h1,
      fun h => absurd h h2⟩
    rw [utf8Len_eq_length_of_allowed _ (labelLoop_allowed _ 0)]
    have := labelLoop_length (rustTrim label) 0
    omega

/-- **C10.** Label sanitisation is total and never fails: for every input,
`sanitize_label` and `sanitize_subagent_label` return a non-empty string of
at most 48 bytes over `[a-z0-9._-]`, mapping uppercase to lowercase and
space, '/' and ':' to '-'; when the input trims to empty or no character is
mappable, the default ("subagent" resp. "delegate") is returned — so a spawn
or delegate call never errors because of its label. -/
theorem sanitize_labels_total (label : Str) :
    (sanitize_label label ≠ [] ∧
     utf8Len (sanitize_label label) ≤ 48 ∧
     (∀ c ∈ sanitize_label label, allowedLabelChar c = true) ∧
     (rustTrim label = [] → sanitize_label label = "subagent".data) ∧
     (labelLoop (rustTrim label) 0 = [] →
       sanitize_label label = "subagent".data)) ∧
    (sanitize_subagent_label label ≠ [] ∧
     utf8Len (sanitize_subagent_label label) ≤ 48 ∧
     (∀ c ∈ sanitize_subagent_label label, allowedLabelChar c = true) ∧
     (rustTrim label = [] → sanitize_subagent_label label = "delegate".data) ∧
     (labelLoop (rustTrim label) 0 = [] →
       sanitize_subagent_label label = "delegate".data)) ∧
    sanitize_label "My Agent".data = "my-agent".data ∧
    sanitize_subagent_label "a/b:c".data = "a-b-c".data ∧
    sanitize_subagent_label ['😅'] = "delegate".data :=
  ⟨sanitize_label_spec label, sanitize_subagent_label_spec label,
    by decide, by decide, by decide⟩

/-- **C7 (amended).** `parse_tools_policy` agrees with the spec's derivation
table everywhere, with the sequence filter cap read as 128 *bytes* (the code
checks `trimmed.len()`, a byte count): missing, `true`, the inherit synonyms,
unrecognised strings and all other shapes give Inherit; `false` and the none
synonyms give None; a sequence keeps at most its first 128 items, drops
non-strings and items trimming to empty or over 128 bytes, lowercases the
survivors, and yields Inherit when none survive, else their allowlist. -/
theorem parse_tools_policy_matches_spec (raw : Option Yaml) :
    parse_tools_policy raw = toolsPolicySpec raw := by
  rcases raw with _ | v
  · rfl
  rcases v with _ | b | n | s | items | _
  · rfl
  · cases b <;> rfl
  · rfl
  · simp only [parse_tools_policy, toolsPolicySpec, List.mem_cons,
      List.not_mem_nil, or_false]
    by_cases h0 : asciiLower (rustTrim s) = []
    · rw [if_pos h0, if_pos (Or.inl h0)]
    · rw [if_neg h0]
      by_cases h1 : asciiLower (rustTrim s) = "inherit".data ∨
          asciiLower (rustTrim s) = "default".data ∨
          asciiLower (rustTrim s) = "all".data
      · rw [if_pos h1, if_pos (Or.inr h1)]
      · have hs1 : ¬ (asciiLower (rustTrim s) = [] ∨
            asciiLower (rustTrim s) = "inherit".data ∨
            asciiLower (rustTrim s) = "default".data ∨
            asciiLower (rustTrim s) = "all".data) := by tauto
        rw [if_neg h1, if_neg hs1]
  · simp only [parse_tools_policy, toolsPolicySpec, MAX_ALLOWED_TOOLS,
      MAX_TOOL_NAME_LEN]
    have hfm : ((items.take 128).filterMap fun item =>
        match item with
        | .str tool =>
          if rustTrim tool = [] ∨ 128 < utf8Len (rustTrim tool) then none
          else some (asciiLower (rustTrim tool))
        | _ => none) =
        ((items.take 128).filterMap fun item =>
        match item with
        | .str tool =>
          if rustTrim tool ≠ [] ∧ utf8Len (rustTrim tool) ≤ 128 then
            some (asciiLower (rustTrim tool))
          else none
        | _ => none) := by
      apply List.filterMap_congr
      intro item _
      rcases item with _ | b | n | tool | its | _ <;> try rfl
      show (if rustTrim tool = [] ∨ 128 < utf8Len (rustTrim tool) then none
          else some (asciiLower (rustTrim tool))) =
        (if rustTrim tool ≠ [] ∧ utf8Len (rustTrim tool) ≤ 128 then
          some (asciiLower (rustTrim tool)) else none)
      by_cases hc : rustTrim tool = [] ∨ 128 < utf8Len (rustTrim tool)
      · rw [if_pos hc, if_neg]
        rcases hc with h | h
        · exact fun hab => hab.1 h
        · exact fun hab => absurd hab.2 (by omega)
      · rw [if_neg hc, if_pos]
        push_neg at hc
        exact ⟨hc.1, by omega⟩
    rw [hfm]
    rcases hout : (items.take 128).filterMap _ with _ | _
    · simp_all
    · simp_all
  · rfl

/-- **C7 (counterexample).** A sequence item of 65 copies of 'é' trims to a
non-empty string of 65 ≤ 128 characters, so the claim's character-counting
filter keeps it; its UTF-8 length is 130 > 128 bytes, so the code drops it
and the derived policy is Inherit, not an allowlist. -/
theorem tools_policy_bytes_counterexample :
    parse_tools_policy (some (.seq [.str (List.replicate 65 'é')])) =
      .Inherit ∧
    parse_tools_policy_chars (some (.seq [.str (List.replicate 65 'é')])) =
      .Allowlist [List.replicate 65 'é'] ∧
    (List.replicate 65 'é').length ≤ 128 ∧
    128 < utf8Len (List.replicate 65 'é') := by
  decide

theorem insertAgent_keys (scope : AgentScope)
    (m : List (String × CustomAgent)) (n : String) (a : CustomAgent) :
    ∀ x ∈ (insertAgent scope m n a).map Prod.fst,
      x = n ∨ x ∈ m.map Prod.fst := by
  induction m with
  | nil =>
    intro x hx
    simp only [insertAgent, List.map_cons, List.map_nil, List.mem_singleton]
      at hx
    exact Or.inl hx
  | cons kv rest ih =>
    obtain ⟨k, v⟩ := kv
    intro x hx
    simp only [insertAgent] at hx
    split at hx
    · simp only [List.map_cons, List.mem_cons] at hx ⊢
      tauto
    · split at hx
      · simp only [List.map_cons, List.mem_cons] at hx ⊢
        tauto
      · simp only [List.map_cons, List.mem_cons] at hx ⊢
        rcases hx with h | h
        · tauto
        · rcases ih x h with h | h <;> tauto

theorem insertAgent_pairwise (scope : AgentScope)
    (m : List (String × CustomAgent)) (n : String) (a : CustomAgent) :
    m.Pairwise (fun p q => p.1 < q.1) →
      (insertAgent scope m n a).Pairwise (fun p q => p.1 < q.1) := by
  induction m with
  | nil =>
    intro _
    simp [insertAgent]
  | cons kv rest ih =>
    obtain ⟨k, v⟩ := kv
    intro h
    rw [List.pairwise_cons] at h
    simp only [insertAgent]
    split
    · rename_i hlt
      rw [List.pairwise_cons]
      constructor
      · intro q hq
        rcases List.mem_cons.mp hq with rfl | hq'
        · exact hlt
        · exact lt_trans hlt (h.1 q hq')
      · rw [List.pairwise_cons]
        exact h
    · split
      · rw [List.pairwise_cons]
        exact ⟨h.1, h.2⟩
      · rename_i hnl hne
        rw [List.pairwise_cons]
        constructor
        · intro q hq
          rcases insertAgent_keys scope rest n a q.1
              (List.mem_map_of_mem Prod.fst hq) with h1 | h1
          · rw [h1]
            exact lt_of_le_of_ne (le_of_not_lt hnl) (Ne.symm hne)
          · obtain ⟨p, hp, hp1⟩ := List.mem_map.mp h1
            exact hp1 ▸ h.1 p hp
        · exact ih h.2

theorem insertAgent_names (scope : AgentScope)
    (m : List (String × CustomAgent)) (n : String) (a : CustomAgent)
    (ha : n = a.name) :
    (∀ p ∈ m, p.1 = p.2.name) →
      ∀ p ∈ insertAgent scope m n a, p.1 = p.2.name := by
  induction m with
  | nil =>
    intro _ p hp
    simp only [insertAgent, List.mem_singleton] at hp
    rw [hp]
    exact ha
  | cons kv rest ih =>
    obtain ⟨k, v⟩ := kv
    intro hm p hp
    simp only [insertAgent] at hp
    split at hp
    · rcases List.mem_cons.mp hp with rfl | hp'
      · exact ha
      · exact hm p hp'
    · split at hp
      · rename_i heq
        rcases List.mem_cons.mp hp with rfl | hp'
        · show k = _
          split
          · rw [← heq, ha]
          · exact hm (k, v) (List.mem_cons_self _ _)
        · exact hm p (List.mem_cons_of_mem _ hp')
      · rcases List.mem_cons.mp hp with rfl | hp'
        · exact hm (k, v) (List.mem_cons_self _ _)
        · exact ih (fun q hq => hm q (List.mem_cons_of_mem _ hq)) p hp'

theorem insertAgent_lookup_repo (m : List (String × CustomAgent))
    (n : String) (a : CustomAgent) :
    lookupA (insertAgent .Repo m n a) n = some a := by
  induction m with
  | nil => simp [insertAgent, lookupA]
  | cons kv rest ih =>
    obtain ⟨k, v⟩ := kv
    simp only [insertAgent]
    split
    · simp [lookupA]
    · split
      · rename_i heq
        simp only [lookupA]
        rw [if_pos heq.symm]
        simp
      · rename_i hnl hne
        simp only [lookupA]
        rw [if_neg fun hkn => hne hkn.symm]
        exact ih

theorem insertAgent_lookup_other (scope : AgentScope)
    (m : List (String × CustomAgent)) (n x : String) (a : CustomAgent)
    (hx : x ≠ n) : lookupA (insertAgent scope m n a) x = lookupA m x := by
  induction m with
  | nil =>
    simp only [insertAgent, lookupA]
    rw [if_neg fun h => hx h.symm]
  | cons kv rest ih =>
    obtain ⟨k, v⟩ := kv
    simp only [insertAgent]
    split
    · simp only [lookupA]
      rw [if_neg fun h => hx h.symm]
    · split
      · rename_i heq
        simp only [lookupA]
        have hkx : ¬ k = x := fun h => hx (h ▸ heq).symm
        rw [if_neg hkx, if_neg hkx]
      · simp only [lookupA]
        split
        · rfl
        · exact ih

theorem scanScope_wf (scope : AgentScope)
    (files : List (String × Except String LoadedAgent)) :
    ∀ acc, MapWF acc.1 → MapWF (scanScope scope files acc).1 := by
  induction files with
  | nil =>
    intro acc h
    exact h
  | cons f rest ih =>
    intro acc h
    obtain ⟨pf, res⟩ := f
    rcases res with e | la
    · simp only [scanScope]
      exact ih _ h
    · simp only [scanScope]
      refine ih _ ⟨insertAgent_pairwise _ _ _ _ h.1, ?_⟩
      exact insertAgent_names _ _ _ _ rfl h.2

theorem scanScope_repo_lookup_preserved
    (files : List (String × Except String LoadedAgent)) :
    ∀ acc (X : String) (v : CustomAgent),
      lookupA acc.1 X = some v →
      ∃ w, lookupA (scanScope .Repo files acc).1 X = some w ∧
        (w = v ∨ ∃ pa la, (pa, Except.ok la) ∈ files ∧ la.name = X ∧
          w = stampScope .Repo la) := by
  induction files with
  | nil =>
    intro acc X v h
    exact ⟨v, h, Or.inl rfl⟩
  | cons f rest ih =>
    intro acc X v h
    obtain ⟨pf, res⟩ := f
    rcases res with e | la
    · simp only [scanScope]
      obtain ⟨w, hw, hcase⟩ :=
        ih (acc.1, acc.2 ++ [{ path := pf, message := e }]) X v h
      refine ⟨w, hw, ?_⟩
      rcases hcase with h1 | ⟨pb, lb, hm, hn, he⟩
      · exact Or.inl h1
      · exact Or.inr ⟨pb, lb, List.mem_cons_of_mem _ hm, hn, he⟩
    · simp only [scanScope]
      by_cases hX : (stampScope .Repo la).name = X
      · subst hX
        obtain ⟨w, hw, hcase⟩ := ih
          (insertAgent .Repo acc.1 (stampScope .Repo la).name
            (stampScope .Repo la), acc.2)
          (stampScope .Repo la).name (stampScope .Repo la)
          (insertAgent_lookup_repo acc.1 (stampScope .Repo la).name
            (stampScope .Repo la))
        refine ⟨w, hw, Or.inr ?_⟩
        rcases hcase with rfl | ⟨pb, lb, hm, hn, he⟩
        · exact ⟨pf, la, List.mem_cons_self _ _, rfl, rfl⟩
        · exact ⟨pb, lb, List.mem_cons_of_mem _ hm, hn, he⟩
      · have hl : lookupA (insertAgent .Repo acc.1
            (stampScope .Repo la).name (stampScope .Repo la)) X = some v := by
          rw [insertAgent_lookup_other _ _ _ _ _ fun hxe => hX hxe.symm]
          exact h
        obtain ⟨w, hw, hcase⟩ := ih
          (insertAgent .Repo acc.1 (stampScope .Repo la).name
            (stampScope .Repo la), acc.2) X v hl
        refine ⟨w, hw, ?_⟩
        rcases hcase with h1 | ⟨pb, lb, hm, hn, he⟩
        · exact Or.inl h1
        · exact Or.inr ⟨pb, lb, List.mem_cons_of_mem _ hm, hn, he⟩

theorem scanScope_repo_lookup_found
    (files : List (String × Except String LoadedAgent)) :
    ∀ acc (X : String),
      (∃ pa la, (pa, Except.ok la) ∈ files ∧ la.name = X) →
      ∃ w, lookupA (scanScope .Repo files acc).1 X = some w ∧
        ∃ pa la, (pa, Except.ok la) ∈ files ∧ la.name = X ∧
          w = stampScope .Repo la := by
  induction files with
  | nil =>
    intro acc X h
    obtain ⟨_, _, hmem, _⟩ := h
    cases hmem
  | cons f rest ih =>
    intro acc X hex
    obtain ⟨pa0, la0, hmem0, hname0⟩ := hex
    obtain ⟨pf, res⟩ := f
    rcases res with e | la
    · simp only [scanScope]
      have hrest : ∃ pa la, (pa, Except.ok la) ∈ rest ∧ la.name = X := by
        rcases List.mem_cons.mp hmem0 with heq | hmem'
        · rw [Prod.mk.injEq] at heq
          exact absurd heq.2 (by simp)
        · exact ⟨pa0, la0, hmem', hname0⟩
      obtain ⟨w, hw, pb, lb, hm, hn, he⟩ := ih _ X hrest
      exact ⟨w, hw, pb, lb, List.mem_cons_of_mem _ hm, hn, he⟩
    · simp only [scanScope]
      by_cases hX : la.name = X
      · subst hX
        obtain ⟨w, hw, hcase⟩ :=
          scanScope_repo_lookup_preserved rest
            (insertAgent .Repo acc.1 (stampScope .Repo la).name
              (stampScope .Repo la), acc.2)
            (stampScope .Repo la).name (stampScope .Repo la)
            (insertAgent_lookup_repo acc.1 (stampScope .Repo la).name
              (stampScope .Repo la))
        refine ⟨w, hw, ?_⟩
        rcases hcase with rfl | ⟨pb, lb, hm, hn, he⟩
        · exact ⟨pf, la, List.mem_cons_self _ _, rfl, rfl⟩
        · exact ⟨pb, lb, List.mem_cons_of_mem _ hm, hn, he⟩
      · have hrest : ∃ pa la', (pa, Except.ok la') ∈ rest ∧ la'.name = X := by
          rcases List.mem_cons.mp hmem0 with heq | hmem'
          · rw [Prod.mk.injEq] at heq
            have h2 := heq.2
            rw [Except.ok.injEq] at h2
            exact absurd (h2 ▸ hname0) hX
          · exact ⟨pa0, la0, hmem', hname0⟩
        obtain ⟨w, hw, pb, lb, hm, hn, he⟩ := ih _ X hrest
        exact ⟨w, hw, pb, lb, List.mem_cons_of_mem _ hm, hn, he⟩

theorem mapWF_filter_eq (m : List (String × CustomAgent)) :
    MapWF m → ∀ (X : String) (v : CustomAgent), lookupA m X = some v →
      (m.map Prod.snd).filter (fun a => a.name = X) = [v] := by
  induction m with
  | nil =>
    intro _ X v h
    simp [lookupA] at h
  | cons kv rest ih =>
    intro hwf X v h
    obtain ⟨k, w⟩ := kv
    obtain ⟨hpw, hnm⟩ := hwf
    rw [List.pairwise_cons] at hpw
    simp only [lookupA] at h
    have hkname : k = w.name := hnm (k, w) (List.mem_cons_self _ _)
    by_cases hk : k = X
    · rw [if_pos hk] at h
      obtain rfl : w = v := Option.some.inj h
      have hwX : w.name = X := by rw [← hkname]; exact hk
      simp only [List.map_cons, List.filter_cons]
      rw [if_pos (by simp [hwX])]
      have hrest : (rest.map Prod.snd).filter (fun a => a.name = X) = [] := by
        apply List.filter_eq_nil_iff.mpr
        intro a ha
        obtain ⟨p, hp, rfl⟩ := List.mem_map.mp ha
        have h1 : k < p.1 := hpw.1 p hp
        have h2 : p.1 = p.2.name := hnm p (List.mem_cons_of_mem _ hp)
        simp only [decide_eq_true_eq]
        intro hcontr
        rw [← h2] at hcontr
        rw [hcontr] at h1
        exact absurd hk (ne_of_lt h1)
      rw [hrest]
    · rw [if_neg hk] at h
      have hwX : ¬ w.name = X := by rw [← hkname]; exact hk
      simp only [List.map_cons, List.filter_cons]
      rw [if_neg (by simp [hwX])]
      exact ih ⟨hpw.2, fun p hp => hnm p (List.mem_cons_of_mem _ hp)⟩ X v h

/-- **C8.** The returned agents list is always sorted ascending by name, and
whenever both the user root and the repo root yield an agent with the same
name `X`, the returned list contains exactly one entry named `X`, its scope
is Repo and it is an agent loaded from a repo-scope file (so its path points
to the repo file). -/
theorem discover_agents_repo_wins_sorted
    (userFiles repoFiles : List (String × Except String LoadedAgent))
    (X : String) :
    (discover_agents userFiles repoFiles).1.Pairwise
      (fun a b => a.name < b.name) ∧
    ((∃ pu lu, (pu, Except.ok lu) ∈ userFiles ∧ lu.name = X) →
     (∃ pr lr, (pr, Except.ok lr) ∈ repoFiles ∧ lr.name = X) →
     ∃ v, (discover_agents userFiles repoFiles).1.filter
          (fun a => a.name = X) = [v] ∧
        v.scope = .Repo ∧
        ∃ pr lr, (pr, Except.ok lr) ∈ repoFiles ∧ lr.name = X ∧
          v = stampScope .Repo lr) := by
  have hwf0 : MapWF ([] : List (String × CustomAgent)) :=
    ⟨List.Pairwise.nil, by simp⟩
  have hwf1 : MapWF (scanScope .User userFiles ([], [])).1 :=
    scanScope_wf .User userFiles _ hwf0
  have hwf2 : MapWF
      (scanScope .Repo repoFiles (scanScope .User userFiles ([], []))).1 :=
    scanScope_wf .Repo repoFiles _ hwf1
  constructor
  · show ((scanScope .Repo repoFiles
      (scanScope .User userFiles ([], []))).1.map Prod.snd).Pairwise
        (fun a b => a.name < b.name)
    rw [List.pairwise_map]
    refine hwf2.1.imp_of_mem ?_
    intro p q hp hq hlt
    rw [← hwf2.2 p hp, ← hwf2.2 q hq]
    exact hlt
  · intro _ hr
    obtain ⟨w, hw, pb, lb, hm, hn, he⟩ :=
      scanScope_repo_lookup_found repoFiles
        (scanScope .User userFiles ([], [])) X hr
    refine ⟨w, ?_, ?_, pb, lb, hm, hn, he⟩
    · exact mapWF_filter_eq _ hwf2 X w hw
    · rw [he]
      rfl

/-- Witness for C8: one user file and one repo file both defining an agent
named "a"; the single returned entry named "a" is the repo-scope one. -/
theorem discover_agents_repo_wins_witness :
    ∃ v, (discover_agents
        [("u", Except.ok ⟨"a", "u/a.md", "up"⟩)]
        [("r", Except.ok ⟨"a", "r/a.md", "rp"⟩)]).1.filter
          (fun a => a.name = "a") = [v] ∧
      v.scope = .Repo ∧
      ∃ pr lr, (pr, Except.ok lr) ∈
          ([("r", Except.ok ⟨"a", "r/a.md", "rp"⟩)] :
            List (String × Except String LoadedAgent)) ∧
        lr.name = "a" ∧ v = stampScope .Repo lr :=
  (discover_agents_repo_wins_sorted
      [("u", Except.ok ⟨"a", "u/a.md", "up"⟩)]
      [("r", Except.ok ⟨"a", "r/a.md", "rp"⟩)] "a").2
    ⟨"u", ⟨"a", "u/a.md", "up"⟩, List.mem_singleton_self _, rfl⟩
    ⟨"r", ⟨"a", "r/a.md", "rp"⟩, List.mem_singleton_self _, rfl⟩

end Codex

